import Mathlib

/-!
Verification of the format-args scanner (src/bin/format-args.rs).

The development shallowly embeds the data model and operations of the
scanner: the host parser's expression nodes (a faithful fragment of the
syn AST restricted to what the scanner inspects), the macro-body
argument-list parser (impl Parse for MacroCallParser), the expression
classifier and per-invocation counter (MacroFinder::visit_expr_macro),
the counter algebra (impl Add / Sum for ArgsCounter), and the two
inlineable metrics computed in main.
-/

namespace FormatArgs

/-- Model of one segment of a syn Path: its identifier text and whether
the segment carries path arguments (generics). -/
structure PathSeg where
  name : String
  hasArguments : Bool

/-- Model of a syn Path: an optional leading double colon and a
non-empty segment list. -/
structure Path where
  leadingColon : Bool
  segments : List PathSeg

/-- Model of syn Path::get_ident: the single identifier of a path that
has no leading colon, exactly one segment, and no segment arguments. -/
def Path.get_ident (p : Path) : Option String :=
  match p.segments with
  | [seg] => if !p.leadingColon && !seg.hasArguments then some seg.name else none
  | _ => none

/-- Fragment of the syn Expr tree relevant to the scanner: path
expressions (with a possible qualified-self), field projections, method
calls (with turbofish flag and call arguments), assignments, and a
representative sample of the remaining expression forms the classifier
treats uniformly (literals, binary operations, calls, indexing,
parenthesization). -/
inductive Expr where
  | path (qself : Bool) (p : Path)
  | field (base : Expr) (member : String)
  | methodCall (receiver : Expr) (method : String) (turbofish : Bool) (args : List Expr)
  | assign (lhs rhs : Expr)
  | lit (value : Nat)
  | binary (lhs rhs : Expr)
  | call (func : Expr) (args : List Expr)
  | indexOp (base index : Expr)
  | paren (inner : Expr)

/-- Convenience: the bare single-segment path expression for a name. -/
def identExpr (s : String) : Expr :=
  Expr.path false ⟨false, [⟨s, false⟩]⟩

/-- Token-level model of a macro invocation body as seen by the
argument-list parser. A maximal expression that is not a bare
identifier is pre-grouped into one atom, matching how the host
expression grammar consumes a maximal expression from the stream; bare
identifier tokens are kept separate because the parser peeks at them
(named-argument lookahead), and commas and equals signs are the
punctuation the parser consumes itself. -/
inductive Tok where
  | comma
  | eq
  | identTok (name : String)
  | atom (e : Expr)

/-- Model of one input.parse::<Expr>() step of the host expression
grammar on the token stream: an identifier followed by an equals sign
parses as a (right-associated) assignment expression, a bare identifier
parses as a path expression, an atom parses as itself, and anything
else (empty stream, comma, stray equals) is a parse error. The parse
stops at a top-level comma. -/
def parseExpr : List Tok → Option (Expr × List Tok)
  | .identTok s :: .eq :: rest =>
    match parseExpr rest with
    | some (value, r) => some (.assign (identExpr s) value, r)
    | none => none
  | .identTok s :: rest => some (identExpr s, rest)
  | .atom e :: rest => some (e, rest)
  | _ => none

/-- Loop of impl Parse for MacroCallParser after the first expression:
while the stream is nonempty, consume a comma; stop if the stream
ended (trailing comma); if the next tokens are an identifier and an
equals sign (named-argument form), consume them and push only the
value expression; otherwise push the next expression. The fuel
argument bounds the number of loop iterations; each iteration consumes
at least one token, so fuel equal to the stream length always
suffices (parseRestAux_fuel below), making this a faithful rendering
of the while loop. -/
def parseRestAux : Nat → List Tok → Option (List Expr)
  | _, [] => some []
  | 0, _ :: _ => none
  | fuel + 1, .comma :: rest =>
    match rest with
    | [] => some []
    | .identTok _ :: .eq :: rest' =>
      match parseExpr rest' with
      | some (value, r) => (parseRestAux fuel r).map (fun l => value :: l)
      | none => none
    | _ =>
      match parseExpr rest with
      | some (e, r) => (parseRestAux fuel r).map (fun l => e :: l)
      | none => none
  | _ + 1, .identTok _ :: _ => none
  | _ + 1, .eq :: _ => none
  | _ + 1, .atom _ :: _ => none

/-- The loop with its canonical fuel. -/
def parseRest (ts : List Tok) : Option (List Expr) :=
  parseRestAux ts.length ts

/-- MacroCallParser::parse: the first expression is parsed
unconditionally, then the comma-separated loop produces the remaining
arguments. -/
def parseArgs (ts : List Tok) : Option (List Expr) :=
  match parseExpr ts with
  | none => none
  | some (first, rest) =>
    match parseRest rest with
    | none => none
    | some l => some (first :: l)

/-- The ArgsCounter structure: per-category tallies of classified
argument expressions. -/
structure ArgsCounter where
  simple_field_access : Nat
  nested_field_access : Nat
  ident : Nat
  method_call : Nat
  other : Nat

/-- ArgsCounter::default: the all-zero tally. -/
def ArgsCounter.default : ArgsCounter := ⟨0, 0, 0, 0, 0⟩

/-- impl Add for ArgsCounter: componentwise addition. -/
def ArgsCounter.add (a b : ArgsCounter) : ArgsCounter :=
  ⟨a.simple_field_access + b.simple_field_access,
   a.nested_field_access + b.nested_field_access,
   a.ident + b.ident,
   a.method_call + b.method_call,
   a.other + b.other⟩

/-- impl Sum for ArgsCounter: fold of Add starting from the default. -/
def sumCounters (l : List ArgsCounter) : ArgsCounter :=
  l.foldl ArgsCounter.add ArgsCounter.default

/-- is_ident, nested in visit_expr_macro: a path expression with no
qualified-self whose path is a single bare identifier. -/
def is_ident : Expr → Bool
  | .path qself p => !qself && (p.get_ident).isSome
  | _ => false

/-- strip_field_accesses, nested in visit_expr_macro: recursively take
the base of consecutive field projections. -/
def strip_field_accesses : Expr → Expr
  | .field base _ => strip_field_accesses base
  | e => e

/-- is_simple_method_call, nested in visit_expr_macro: a method call
with no turbofish and no call arguments. Defined in the source but not
used by the classification loop. -/
def is_simple_method_call : Expr → Bool
  | .methodCall _ _ turbofish args => !turbofish && args.isEmpty
  | _ => false

/-- One iteration of the classification loop in visit_expr_macro:
identifiers bump ident; field projections bump simple_field_access
when the immediate base is an identifier, bump nested_field_access
when the stripped base is an identifier, and otherwise leave the
counter unchanged; method calls bump method_call; everything else
bumps other. -/
def classifyStep (counter : ArgsCounter) (e : Expr) : ArgsCounter :=
  if is_ident e then { counter with ident := counter.ident + 1 }
  else
    match e with
    | .field base _ =>
      if is_ident base then
        { counter with simple_field_access := counter.simple_field_access + 1 }
      else if is_ident (strip_field_accesses base) then
        { counter with nested_field_access := counter.nested_field_access + 1 }
      else counter
    | .methodCall _ _ _ _ => { counter with method_call := counter.method_call + 1 }
    | _ => { counter with other := counter.other + 1 }

/-- The classification loop over a list of argument expressions,
starting from the default counter. -/
def countArgs (exprs : List Expr) : ArgsCounter :=
  exprs.foldl classifyStep ArgsCounter.default

/-- The macro signature table: the match on the macro name in
visit_expr_macro giving args_start_index, none for any other name. -/
def argsStartIndex (s : String) : Option Nat :=
  if s = "format_args" ∨ s = "format" ∨ s = "panic" ∨ s = "unreachable" ∨
     s = "unimplemented" ∨ s = "todo" ∨ s = "info" ∨ s = "debug" ∨ s = "warn" ∨
     s = "error" ∨ s = "trace" ∨ s = "print" ∨ s = "println" ∨ s = "eprint" ∨
     s = "eprintln" then some 1
  else if s = "write" ∨ s = "writeln" ∨ s = "assert" then some 2
  else if s = "assert_eq" ∨ s = "assert_ne" then some 3
  else none

/-- The twenty names present in the signature table. -/
def knownMacroNames : List String :=
  ["format_args", "format", "panic", "unreachable", "unimplemented", "todo",
   "info", "debug", "warn", "error", "trace", "print", "println", "eprint",
   "eprintln", "write", "writeln", "assert", "assert_eq", "assert_ne"]

/-- Model of a syn ExprMacro node as the visitor sees it: the macro
path and the body token stream. -/
structure MacNode where
  path : Path
  tokens : List Tok

/-- The MacroCall record: macro name and the per-invocation counter. -/
structure MacroCall where
  name : String
  counter : ArgsCounter

/-- MacroFinder::visit_expr_macro as a record-producing function: the
record pushed for an invocation node, or none when the visit returns
early (qualified path, unknown name, body parse failure, or not enough
arguments). -/
def visitExprMac (node : MacNode) : Option MacroCall :=
  match node.path.get_ident with
  | none => none
  | some ident =>
    match argsStartIndex ident with
    | none => none
    | some args_start_index =>
      match parseArgs node.tokens with
      | none => none
      | some exprs =>
        if exprs.length ≤ args_start_index then none
        else some ⟨ident, countArgs (exprs.drop args_start_index)⟩

/-- The strict inlineable count from main: records whose counter has
other, method_call, simple_field_access and nested_field_access all
zero. -/
def can_be_inlined_now (calls : List MacroCall) : Nat :=
  (calls.filter (fun c =>
    c.counter.other == 0 && c.counter.method_call == 0 &&
    c.counter.simple_field_access == 0 && c.counter.nested_field_access == 0)).length

/-- The relaxed inlineable count from main: records whose counter has
other and method_call zero. -/
def can_be_inlined_after (calls : List MacroCall) : Nat :=
  (calls.filter (fun c =>
    c.counter.other == 0 && c.counter.method_call == 0)).length

/-- The sum of the five per-category counts of a tally. -/
def sumCounter (c : ArgsCounter) : Nat :=
  c.ident + c.simple_field_access + c.nested_field_access + c.method_call + c.other

/-- An argument expression that the classification loop counts in no
category: a field projection whose immediate base is not an identifier
and whose base stripped of consecutive field projections is not an
identifier either. -/
def uncountedFieldAccess : Expr → Bool
  | .field base _ => !is_ident base && !is_ident (strip_field_accesses base)
  | _ => false



/-- A path that is a single bare identifier. -/
def barePath (s : String) : Path := ⟨false, [⟨s, false⟩]⟩

/-- The field access (a + b).x, whose stripped base is not an
identifier. -/
def cexField : Expr :=
  Expr.field (Expr.paren (Expr.binary (identExpr "a") (identExpr "b"))) "x"

/-- Invocation node for format with body (0, (a + b).x). -/
def cexNode : MacNode :=
  ⟨barePath "format", [.atom (.lit 0), .comma, .atom cexField]⟩

/-- Invocation node for format with body (0, x). -/
def fmtNode : MacNode :=
  ⟨barePath "format", [.atom (.lit 0), .comma, .identTok "x"]⟩

/-- Invocation node with the qualified path log::info and a
well-formed two-argument body. -/
def qualNode : MacNode :=
  ⟨⟨false, [⟨"log", false⟩, ⟨"info", false⟩]⟩, [.atom (.lit 0), .comma, .identTok "x"]⟩

/-- A successful expression parse consumes at least one token and the
remainder is a suffix of the input. -/
theorem parseExpr_consumes :
    ∀ (ts : List Tok) (e : Expr) (r : List Tok), parseExpr ts = some (e, r) →
      r.length < ts.length ∧ r <:+ ts
  | [], e, r, h => by simp [parseExpr] at h
  | .comma :: rest, e, r, h => by simp [parseExpr] at h
  | .eq :: rest, e, r, h => by simp [parseExpr] at h
  | .atom x :: rest, e, r, h => by
    simp [parseExpr] at h
    obtain ⟨rfl, rfl⟩ := h
    exact ⟨by simp, List.suffix_cons _ _⟩
  | .identTok s :: [], e, r, h => by
    simp [parseExpr] at h
    obtain ⟨rfl, rfl⟩ := h
    exact ⟨by simp, by simp⟩
  | .identTok s :: .eq :: rest, e, r, h => by
    simp only [parseExpr] at h
    cases hr : parseExpr rest with
    | none => rw [hr] at h; simp at h
    | some p =>
      obtain ⟨v, r'⟩ := p
      rw [hr] at h
      simp at h
      obtain ⟨-, rfl⟩ := h
      have ih := parseExpr_consumes rest v r' hr
      refine ⟨?_, ih.2.trans ((List.suffix_cons _ _).trans (List.suffix_cons _ _))⟩
      have h1 := ih.1
      simp only [List.length_cons]
      omega
  | .identTok s :: .comma :: rest, e, r, h => by
    simp [parseExpr] at h
    obtain ⟨rfl, rfl⟩ := h
    exact ⟨by simp, List.suffix_cons _ _⟩
  | .identTok s :: .identTok s' :: rest, e, r, h => by
    simp [parseExpr] at h
    obtain ⟨rfl, rfl⟩ := h
    exact ⟨by simp, List.suffix_cons _ _⟩
  | .identTok s :: .atom x :: rest, e, r, h => by
    simp [parseExpr] at h
    obtain ⟨rfl, rfl⟩ := h
    exact ⟨by simp, List.suffix_cons _ _⟩



/-- Appending a trailing comma does not change a successful expression
parse: the comma ends up at the end of the remainder. -/
theorem parseExpr_append_comma :
    ∀ (ts : List Tok) (e : Expr) (r : List Tok), parseExpr ts = some (e, r) →
      parseExpr (ts ++ [Tok.comma]) = some (e, r ++ [Tok.comma])
  | [], e, r, h => by simp [parseExpr] at h
  | .comma :: rest, e, r, h => by simp [parseExpr] at h
  | .eq :: rest, e, r, h => by simp [parseExpr] at h
  | .atom x :: rest, e, r, h => by
    simp [parseExpr] at h
    obtain ⟨rfl, rfl⟩ := h
    simp [parseExpr]
  | .identTok s :: [], e, r, h => by
    simp [parseExpr] at h
    obtain ⟨rfl, rfl⟩ := h
    simp [parseExpr]
  | .identTok s :: .eq :: rest, e, r, h => by
    simp only [parseExpr] at h
    cases hr : parseExpr rest with
    | none => rw [hr] at h; simp at h
    | some p =>
      obtain ⟨v, r'⟩ := p
      rw [hr] at h
      simp at h
      obtain ⟨rfl, rfl⟩ := h
      have ih := parseExpr_append_comma rest v r' hr
      simp only [List.cons_append, parseExpr, List.append_eq, ih]
  | .identTok s :: .comma :: rest, e, r, h => by
    simp [parseExpr] at h
    obtain ⟨rfl, rfl⟩ := h
    simp [parseExpr]
  | .identTok s :: .identTok s' :: rest, e, r, h => by
    simp [parseExpr] at h
    obtain ⟨rfl, rfl⟩ := h
    simp [parseExpr]
  | .identTok s :: .atom x :: rest, e, r, h => by
    simp [parseExpr] at h
    obtain ⟨rfl, rfl⟩ := h
    simp [parseExpr]



/-- The loop result does not depend on the fuel as long as the fuel is
at least the stream length: each iteration consumes at least one
token. -/
theorem parseRestAux_fuel_eq (f₁ f₂ : Nat) (ts : List Tok)
    (h₁ : ts.length ≤ f₁) (h₂ : ts.length ≤ f₂) :
    parseRestAux f₁ ts = parseRestAux f₂ ts := by
  induction f₁ generalizing f₂ ts with
  | zero =>
    cases ts with
    | nil => cases f₂ <;> rfl
    | cons t rest => simp at h₁
  | succ g₁ ih =>
    cases ts with
    | nil => cases f₂ <;> rfl
    | cons t rest =>
      cases f₂ with
      | zero => simp at h₂
      | succ g₂ =>
        cases t with
        | identTok n => rfl
        | eq => rfl
        | atom x => rfl
        | comma =>
          match rest with
          | [] => rfl
          | .comma :: rest₂ => rfl
          | .eq :: rest₂ => rfl
          | .atom x :: rest₂ =>
            simp only [parseRestAux, parseExpr]
            simp only [List.length_cons] at h₁ h₂
            rw [ih g₂ rest₂ (by omega) (by omega)]
          | .identTok n :: [] =>
            simp only [parseRestAux, parseExpr]
          | .identTok n :: .comma :: rest₂ =>
            simp only [parseRestAux, parseExpr]
            simp only [List.length_cons] at h₁ h₂
            rw [ih g₂ (.comma :: rest₂) (by simp; omega) (by simp; omega)]
          | .identTok n :: .identTok m :: rest₂ =>
            simp only [parseRestAux, parseExpr]
            simp only [List.length_cons] at h₁ h₂
            rw [ih g₂ (.identTok m :: rest₂) (by simp; omega) (by simp; omega)]
          | .identTok n :: .atom x :: rest₂ =>
            simp only [parseRestAux, parseExpr]
            simp only [List.length_cons] at h₁ h₂
            rw [ih g₂ (.atom x :: rest₂) (by simp; omega) (by simp; omega)]
          | .identTok n :: .eq :: rest' =>
            simp only [parseRestAux]
            cases hr : parseExpr rest' with
            | none => rfl
            | some p =>
              obtain ⟨v, r⟩ := p
              have hc := (parseExpr_consumes rest' v r hr).1
              simp only [List.length_cons] at h₁ h₂
              show Option.map (fun l => v :: l) (parseRestAux g₁ r) =
                Option.map (fun l => v :: l) (parseRestAux g₂ r)
              rw [ih g₂ r (by omega) (by omega)]



/-- A nonempty suffix has the same last element as the whole list. -/
theorem suffix_getLast? {α : Type} {r ts : List α} (h : r <:+ ts) (hne : r ≠ []) :
    r.getLast? = ts.getLast? := by
  obtain ⟨p, rfl⟩ := h
  exact (List.getLast?_append_of_ne_nil p hne).symm

/-- The last element of a cons with a nonempty tail is the last
element of the tail. -/
theorem getLast?_cons_ne_nil {α : Type} (a : α) {l : List α} (h : l ≠ []) :
    (a :: l).getLast? = l.getLast? := by
  cases l with
  | nil => exact absurd rfl h
  | cons b t => exact List.getLast?_cons_cons

/-- Appending one comma to a successfully parsed loop remainder that
does not already end in a comma preserves the parsed arguments. -/
theorem parseRestAux_append_comma :
    ∀ (fuel : Nat) (r : List Tok) (l : List Expr),
      parseRestAux fuel r = some l → r.length ≤ fuel →
      r.getLast? ≠ some Tok.comma →
      parseRestAux (fuel + 1) (r ++ [Tok.comma]) = some l := by
  intro fuel
  induction fuel with
  | zero =>
    intro r l h hlen hlast
    cases r with
    | nil =>
      simp [parseRestAux] at h
      subst h
      rfl
    | cons t rest => simp at hlen
  | succ g ih =>
    intro r l h hlen hlast
    cases r with
    | nil =>
      simp [parseRestAux] at h
      subst h
      rfl
    | cons t rest =>
      cases t with
      | identTok n => simp [parseRestAux] at h
      | eq => simp [parseRestAux] at h
      | atom x => simp [parseRestAux] at h
      | comma =>
        match rest with
        | [] => simp [List.getLast?] at hlast
        | .comma :: rest₂ => simp [parseRestAux, parseExpr] at h
        | .eq :: rest₂ => simp [parseRestAux, parseExpr] at h
        | .atom x :: rest₂ =>
          simp only [parseRestAux, parseExpr] at h
          obtain ⟨l', hl', rfl⟩ := Option.map_eq_some'.mp h
          simp only [List.cons_append, List.append_eq, parseRestAux, parseExpr]
          simp only [List.length_cons] at hlen
          have hlast₂ : rest₂.getLast? ≠ some Tok.comma := by
            by_cases hre : rest₂ = []
            · subst hre; simp
            · rw [getLast?_cons_ne_nil _ (by simp),
                getLast?_cons_ne_nil _ hre] at hlast
              exact hlast
          rw [ih rest₂ l' hl' (by omega) hlast₂]
          rfl
        | .identTok n :: [] =>
          simp only [parseRestAux, parseExpr] at h ⊢
          simpa using h
        | .identTok n :: .comma :: rest₂ =>
          simp only [parseRestAux, parseExpr] at h
          obtain ⟨l', hl', rfl⟩ := Option.map_eq_some'.mp h
          simp only [List.cons_append, List.append_eq, parseRestAux, parseExpr]
          simp only [List.length_cons] at hlen
          have hlast₂ : (Tok.comma :: rest₂).getLast? ≠ some Tok.comma := by
            rw [getLast?_cons_ne_nil _ (by simp),
              getLast?_cons_ne_nil _ (by simp)] at hlast
            exact hlast
          show Option.map (fun l => identExpr n :: l)
              (parseRestAux (g + 1) ((Tok.comma :: rest₂) ++ [Tok.comma])) =
            some (identExpr n :: l')
          rw [ih (.comma :: rest₂) l' hl' (by simp; omega) hlast₂]
          rfl
        | .identTok n :: .identTok m :: rest₂ =>
          simp only [parseRestAux, parseExpr] at h
          obtain ⟨l', hl', rfl⟩ := Option.map_eq_some'.mp h
          cases g <;> simp [parseRestAux] at hl'
        | .identTok n :: .atom x :: rest₂ =>
          simp only [parseRestAux, parseExpr] at h
          obtain ⟨l', hl', rfl⟩ := Option.map_eq_some'.mp h
          cases g <;> simp [parseRestAux] at hl'
        | .identTok n :: .eq :: rest' =>
          simp only [parseRestAux] at h
          cases hr : parseExpr rest' with
          | none => rw [hr] at h; simp at h
          | some p =>
            obtain ⟨v, rr⟩ := p
            rw [hr] at h
            obtain ⟨l', hl', rfl⟩ := Option.map_eq_some'.mp h
            have hcon := parseExpr_consumes rest' v rr hr
            simp only [List.cons_append, List.append_eq, parseRestAux,
              parseExpr_append_comma rest' v rr hr]
            simp only [List.length_cons] at hlen
            have hrest' : rest' ≠ [] := by
              intro hre
              rw [hre] at hr
              simp [parseExpr] at hr
            have hlast₂ : rr.getLast? ≠ some Tok.comma := by
              by_cases hrr : rr = []
              · subst hrr; simp
              · rw [suffix_getLast? hcon.2 hrr]
                rw [getLast?_cons_ne_nil _ (by simp),
                  getLast?_cons_ne_nil _ (by simp),
                  getLast?_cons_ne_nil _ hrest'] at hlast
                exact hlast
            rw [ih rr l' hl' (by omega) hlast₂]
            rfl



/-- Claim C7 (amended): a successfully parsed body that does not
already end in a comma parses to the same argument list when one
trailing comma is appended. -/
theorem parseArgs_trailing_comma (ts : List Tok) (l : List Expr)
    (h : parseArgs ts = some l) (hlast : ts.getLast? ≠ some Tok.comma) :
    parseArgs (ts ++ [Tok.comma]) = some l := by
  cases he : parseExpr ts with
  | none =>
    unfold parseArgs at h
    rw [he] at h
    simp at h
  | some p =>
    obtain ⟨first, rest⟩ := p
    unfold parseArgs at h
    rw [he] at h
    have h2 : (match parseRest rest with
        | none => none
        | some l₂ => some (first :: l₂)) = some l := h
    cases hrest : parseRest rest with
    | none => rw [hrest] at h2; simp at h2
    | some l₂ =>
      rw [hrest] at h2
      simp only [Option.some.injEq] at h2
      subst h2
      have hcon := parseExpr_consumes ts first rest he
      have hlast₂ : rest.getLast? ≠ some Tok.comma := by
        by_cases hre : rest = []
        · subst hre; simp
        · rw [suffix_getLast? hcon.2 hre]; exact hlast
      have hstep := parseRestAux_append_comma rest.length rest l₂ hrest le_rfl hlast₂
      have hr₂ : parseRest (rest ++ [Tok.comma]) = some l₂ := by
        unfold parseRest
        rw [List.length_append]
        simpa using hstep
      unfold parseArgs
      rw [parseExpr_append_comma ts first rest he]
      show (match parseRest (rest ++ [Tok.comma]) with
          | none => none
          | some l₃ => some (first :: l₃)) = some (first :: l₂)
      rw [hr₂]

/-- Each classified expression adds exactly one to the total of the
five per-category counts, except an uncounted field access, which adds
nothing. -/
theorem sumCounter_classifyStep (c : ArgsCounter) (e : Expr) :
    sumCounter (classifyStep c e) =
      sumCounter c + (if uncountedFieldAccess e then 0 else 1) := by
  cases e with
  | field base member =>
    have hfe : is_ident (Expr.field base member) = false := rfl
    by_cases h1 : is_ident base
    · simp [classifyStep, hfe, h1, uncountedFieldAccess, sumCounter]
      omega
    · by_cases h2 : is_ident (strip_field_accesses base)
      · simp [classifyStep, hfe, h1, h2, uncountedFieldAccess, sumCounter]
        omega
      · simp [classifyStep, hfe, h1, h2, uncountedFieldAccess, sumCounter]
  | path qself p =>
    by_cases h : is_ident (Expr.path qself p)
    · simp [classifyStep, h, uncountedFieldAccess, sumCounter]
      omega
    · simp [classifyStep, h, uncountedFieldAccess, sumCounter]
      omega
  | methodCall receiver method turbofish args =>
    simp [classifyStep, is_ident, uncountedFieldAccess, sumCounter]
    omega
  | assign lhs rhs =>
    simp [classifyStep, is_ident, uncountedFieldAccess, sumCounter]
    omega
  | lit v =>
    simp [classifyStep, is_ident, uncountedFieldAccess, sumCounter]
    omega
  | binary lhs rhs =>
    simp [classifyStep, is_ident, uncountedFieldAccess, sumCounter]
    omega
  | call func args =>
    simp [classifyStep, is_ident, uncountedFieldAccess, sumCounter]
    omega
  | indexOp base index =>
    simp [classifyStep, is_ident, uncountedFieldAccess, sumCounter]
    omega
  | paren inner =>
    simp [classifyStep, is_ident, uncountedFieldAccess, sumCounter]
    omega

/-- Folding the classification over a list accounts for every element:
the five-category total plus the number of uncounted field accesses
equals the starting total plus the list length. -/
theorem sumCounter_foldl (exprs : List Expr) : ∀ c : ArgsCounter,
    sumCounter (exprs.foldl classifyStep c) + exprs.countP uncountedFieldAccess =
      sumCounter c + exprs.length := by
  induction exprs with
  | nil => simp
  | cons e t ih =>
    intro c
    simp only [List.foldl_cons, List.countP_cons, List.length_cons]
    have h1 := sumCounter_classifyStep c e
    have h2 := ih (classifyStep c e)
    by_cases hu : uncountedFieldAccess e <;> simp [hu] at h1 ⊢ <;> omega



/-- Counter addition is commutative. -/
theorem counterAdd_comm (a b : ArgsCounter) : a.add b = b.add a := by
  cases a; cases b
  simp [ArgsCounter.add]
  omega

/-- Counter addition is associative. -/
theorem counterAdd_assoc (a b c : ArgsCounter) :
    (a.add b).add c = a.add (b.add c) := by
  cases a; cases b; cases c
  simp [ArgsCounter.add]
  omega

/-- The all-zero counter is a two-sided identity for addition. -/
theorem counterAdd_default (a : ArgsCounter) :
    a.add ArgsCounter.default = a ∧ ArgsCounter.default.add a = a := by
  cases a
  simp [ArgsCounter.add, ArgsCounter.default]

/-- Folding counter addition from any start equals adding the start to
the fold from the identity. -/
theorem foldl_counterAdd (l : List ArgsCounter) : ∀ a : ArgsCounter,
    l.foldl ArgsCounter.add a = a.add (sumCounters l) := by
  induction l with
  | nil =>
    intro a
    simp [sumCounters, (counterAdd_default a).1]
  | cons b t ih =>
    intro a
    have hb : ArgsCounter.default.add b = b := (counterAdd_default b).2
    simp only [List.foldl_cons, sumCounters] at ih ⊢
    rw [ih (a.add b), ih (ArgsCounter.default.add b), hb, counterAdd_assoc]

/-- Summing over a concatenation is adding the two sums. -/
theorem sumCounters_append (l₁ l₂ : List ArgsCounter) :
    sumCounters (l₁ ++ l₂) = (sumCounters l₁).add (sumCounters l₂) := by
  unfold sumCounters
  rw [List.foldl_append]
  exact foldl_counterAdd l₂ _

/-- Summing counters is invariant under permutation. -/
theorem sumCounters_perm (l₁ l₂ : List ArgsCounter) (hp : l₁.Perm l₂) :
    sumCounters l₁ = sumCounters l₂ := by
  unfold sumCounters
  exact hp.foldl_eq'
    (fun x _ y _ z => by
      cases x; cases y; cases z
      simp [ArgsCounter.add]
      omega) _

/-- A filter over a stronger predicate keeps at most as many elements
as a filter over a weaker one. -/
theorem length_filter_mono {α : Type} (p q : α → Bool)
    (h : ∀ a, p a = true → q a = true) :
    ∀ l : List α, (l.filter p).length ≤ (l.filter q).length := by
  intro l
  induction l with
  | nil => simp
  | cons a t ih =>
    by_cases hpa : p a = true
    · have hqa := h a hpa
      simp [List.filter_cons, hpa, hqa]
      omega
    · rw [Bool.not_eq_true] at hpa
      simp only [List.filter_cons, hpa]
      cases hqa : q a <;> simp <;> omega

/-- Characterization of a visit producing a record: the path is a bare
identifier whose name is in the table, the body parses, and there are
more arguments than the skip count; the record then carries that name
and the classification of the arguments past the skip count. -/
theorem visitExprMac_some_iff (node : MacNode) (r : MacroCall) :
    visitExprMac node = some r ↔
      ∃ ident k exprs, node.path.get_ident = some ident ∧
        argsStartIndex ident = some k ∧ parseArgs node.tokens = some exprs ∧
        k < exprs.length ∧ r = ⟨ident, countArgs (exprs.drop k)⟩ := by
  constructor
  · intro hh
    unfold visitExprMac at hh
    cases hI : node.path.get_ident with
    | none => rw [hI] at hh; simp at hh
    | some ident =>
      rw [hI] at hh
      have hh₁ : (match argsStartIndex ident with
          | none => none
          | some args_start_index =>
            match parseArgs node.tokens with
            | none => none
            | some exprs =>
              if exprs.length ≤ args_start_index then none
              else some ⟨ident, countArgs (exprs.drop args_start_index)⟩) = some r := hh
      cases hA : argsStartIndex ident with
      | none => rw [hA] at hh₁; simp at hh₁
      | some k =>
        rw [hA] at hh₁
        have hh₂ : (match parseArgs node.tokens with
            | none => none
            | some exprs =>
              if exprs.length ≤ k then none
              else some ⟨ident, countArgs (exprs.drop k)⟩) = some r := hh₁
        cases hP : parseArgs node.tokens with
        | none => rw [hP] at hh₂; simp at hh₂
        | some exprs =>
          rw [hP] at hh₂
          have hh₃ : (if exprs.length ≤ k then none
              else some (⟨ident, countArgs (exprs.drop k)⟩ : MacroCall)) = some r := hh₂
          by_cases hL : exprs.length ≤ k
          · rw [if_pos hL] at hh₃; simp at hh₃
          · rw [if_neg hL] at hh₃
            injection hh₃ with hh₃
            exact ⟨ident, k, exprs, rfl, hA, rfl, by omega, hh₃.symm⟩
  · rintro ⟨ident, k, exprs, hI, hA, hP, hlt, rfl⟩
    unfold visitExprMac
    rw [hI]
    show (match argsStartIndex ident with
        | none => none
        | some k₂ =>
          match parseArgs node.tokens with
          | none => none
          | some es =>
            if es.length ≤ k₂ then none
            else some (⟨ident, countArgs (es.drop k₂)⟩ : MacroCall)) =
      some (⟨ident, countArgs (exprs.drop k)⟩ : MacroCall)
    rw [hA]
    show (match parseArgs node.tokens with
        | none => none
        | some es =>
          if es.length ≤ k then none
          else some (⟨ident, countArgs (es.drop k)⟩ : MacroCall)) =
      some (⟨ident, countArgs (exprs.drop k)⟩ : MacroCall)
    rw [hP]
    show (if exprs.length ≤ k then none
        else some (⟨ident, countArgs (exprs.drop k)⟩ : MacroCall)) =
      some (⟨ident, countArgs (exprs.drop k)⟩ : MacroCall)
    rw [if_neg (by omega)]



/-- After a comma, a named argument contributes only its value
expression, with the loop continuing on what the value parse left. -/
theorem parseRest_comma_named (n : String) (ts : List Tok) (v : Expr) (r : List Tok)
    (he : parseExpr ts = some (v, r)) :
    parseRest (Tok.comma :: Tok.identTok n :: Tok.eq :: ts) =
      (parseRest r).map (fun l => v :: l) := by
  unfold parseRest
  show (match parseExpr ts with
      | some (value, r₂) => (parseRestAux (ts.length + 2) r₂).map (fun l => value :: l)
      | none => none) = (parseRestAux r.length r).map (fun l => v :: l)
  rw [he]
  show (parseRestAux (ts.length + 2) r).map (fun l => v :: l) =
    (parseRestAux r.length r).map (fun l => v :: l)
  rw [parseRestAux_fuel_eq (ts.length + 2) r.length r
    (by have := (parseExpr_consumes ts v r he).1; omega) le_rfl]

/-- After a comma, a positional (non-named) argument contributes the
parsed expression itself, with the loop continuing on the rest. -/
theorem parseRest_comma_positional (ts : List Tok) (e : Expr) (r : List Tok)
    (hshape : ∀ m ts', ts ≠ Tok.identTok m :: Tok.eq :: ts')
    (he : parseExpr ts = some (e, r)) :
    parseRest (Tok.comma :: ts) = (parseRest r).map (fun l => e :: l) := by
  match ts with
  | [] => simp [parseExpr] at he
  | .comma :: ts₂ => simp [parseExpr] at he
  | .eq :: ts₂ => simp [parseExpr] at he
  | .atom x :: ts₂ =>
    simp [parseExpr] at he
    obtain ⟨rfl, rfl⟩ := he
    show (parseRestAux (ts₂.length + 1) ts₂).map (fun l => x :: l) =
      (parseRestAux ts₂.length ts₂).map (fun l => x :: l)
    rw [parseRestAux_fuel_eq (ts₂.length + 1) ts₂.length ts₂ (by omega) le_rfl]
  | .identTok m :: [] =>
    simp [parseExpr] at he
    obtain ⟨rfl, rfl⟩ := he
    rfl
  | .identTok m :: .eq :: ts₂ => exact absurd rfl (hshape m ts₂)
  | .identTok m :: .comma :: ts₂ =>
    simp [parseExpr] at he
    obtain ⟨rfl, rfl⟩ := he
    show (parseRestAux (ts₂.length + 2) (Tok.comma :: ts₂)).map (fun l => identExpr m :: l) =
      (parseRestAux (Tok.comma :: ts₂).length (Tok.comma :: ts₂)).map (fun l => identExpr m :: l)
    rw [parseRestAux_fuel_eq (ts₂.length + 2) (Tok.comma :: ts₂).length (Tok.comma :: ts₂)
      (by simp) le_rfl]
  | .identTok m :: .identTok m₂ :: ts₂ =>
    simp [parseExpr] at he
    obtain ⟨rfl, rfl⟩ := he
    show (parseRestAux (ts₂.length + 2) (Tok.identTok m₂ :: ts₂)).map
        (fun l => identExpr m :: l) =
      (parseRestAux (Tok.identTok m₂ :: ts₂).length (Tok.identTok m₂ :: ts₂)).map
        (fun l => identExpr m :: l)
    rw [parseRestAux_fuel_eq (ts₂.length + 2) (Tok.identTok m₂ :: ts₂).length
      (Tok.identTok m₂ :: ts₂) (by simp) le_rfl]
  | .identTok m :: .atom x :: ts₂ =>
    simp [parseExpr] at he
    obtain ⟨rfl, rfl⟩ := he
    show (parseRestAux (ts₂.length + 2) (Tok.atom x :: ts₂)).map (fun l => identExpr m :: l) =
      (parseRestAux (Tok.atom x :: ts₂).length (Tok.atom x :: ts₂)).map
        (fun l => identExpr m :: l)
    rw [parseRestAux_fuel_eq (ts₂.length + 2) (Tok.atom x :: ts₂).length (Tok.atom x :: ts₂)
      (by simp) le_rfl]



/-- Claim C1, counterexample: the invocation format!(0, (a + b).x)
produces a record whose five per-category counts sum to 0, while one
argument lies beyond the skip count: the classifier assigns no
category to a field projection whose stripped base is not a bare
identifier. -/
theorem C1_counterexample :
    visitExprMac cexNode = some ⟨"format", ArgsCounter.default⟩ ∧
    parseArgs cexNode.tokens = some [Expr.lit 0, cexField] ∧
    argsStartIndex "format" = some 1 ∧
    sumCounter ArgsCounter.default = 0 ∧
    ([Expr.lit 0, cexField].drop 1).length = 1 ∧
    (0 : Nat) ≠ 1 :=
  ⟨rfl, rfl, rfl, rfl, rfl, by decide⟩

/-- Claim C1 (amended): for every emitted record, the sum of the five
per-category counts plus the number of arguments beyond skip_count
that are field projections not bottoming out at a bare identifier
equals the number of arguments beyond skip_count; every other
expression not matching rules 1-4 is counted as Other. -/
theorem C1_classified_totals (node : MacNode) (r : MacroCall) (k : Nat)
    (exprs : List Expr) (h : visitExprMac node = some r)
    (hk : argsStartIndex r.name = some k)
    (hp : parseArgs node.tokens = some exprs) :
    sumCounter r.counter + (exprs.drop k).countP uncountedFieldAccess =
      (exprs.drop k).length := by
  obtain ⟨ident, k', exprs', h1, h2, h3, h4, rfl⟩ :=
    (visitExprMac_some_iff node r).mp h
  simp only at hk
  rw [h2] at hk
  injection hk with hk
  subst hk
  rw [h3] at hp
  injection hp with hp
  subst hp
  have := sumCounter_foldl (exprs'.drop k') ArgsCounter.default
  simpa [countArgs, sumCounter, ArgsCounter.default] using this

/-- Witness for C1 (amended) at format!(0, x). -/
theorem C1_classified_totals_witness :
    sumCounter (ArgsCounter.mk 0 0 1 0 0) +
      ([Expr.lit 0, identExpr "x"].drop 1).countP uncountedFieldAccess =
      ([Expr.lit 0, identExpr "x"].drop 1).length :=
  C1_classified_totals fmtNode ⟨"format", ⟨0, 0, 1, 0, 0⟩⟩ 1
    [Expr.lit 0, identExpr "x"] rfl rfl rfl

/-- Claim C2: a record is emitted if and only if the name is in the
signature table (on a bare-identifier path), the body parses as an
argument list, and the list is strictly longer than the skip count; in
every other case the visit yields no record (and, being a total
function into an option, raises no error). -/
theorem C2_record_iff (node : MacNode) :
    (∃ r, visitExprMac node = some r) ↔
      ∃ name k exprs, node.path.get_ident = some name ∧
        argsStartIndex name = some k ∧ parseArgs node.tokens = some exprs ∧
        k < exprs.length := by
  constructor
  · rintro ⟨r, hr⟩
    obtain ⟨ident, k, exprs, h1, h2, h3, h4, -⟩ :=
      (visitExprMac_some_iff node r).mp hr
    exact ⟨ident, k, exprs, h1, h2, h3, h4⟩
  · rintro ⟨name, k, exprs, h1, h2, h3, h4⟩
    exact ⟨⟨name, countArgs (exprs.drop k)⟩,
      (visitExprMac_some_iff node _).mpr ⟨name, k, exprs, h1, h2, h3, h4, rfl⟩⟩

/-- Witness for C2 at format!(0, x). -/
theorem C2_record_iff_witness : ∃ r, visitExprMac fmtNode = some r :=
  (C2_record_iff fmtNode).mpr
    ⟨"format", 1, [Expr.lit 0, identExpr "x"], rfl, rfl, rfl, by decide⟩



/-- Claim C3: the signature table maps exactly the twenty listed names
to their skip counts (1, 2 or 3), and every other name to nothing; the
skip count is a fixed function of the name alone. -/
theorem C3_signature_table :
    (∀ s : String, s ∉ knownMacroNames → argsStartIndex s = none) ∧
    argsStartIndex "format_args" = some 1 ∧ argsStartIndex "format" = some 1 ∧
    argsStartIndex "panic" = some 1 ∧ argsStartIndex "unreachable" = some 1 ∧
    argsStartIndex "unimplemented" = some 1 ∧ argsStartIndex "todo" = some 1 ∧
    argsStartIndex "info" = some 1 ∧ argsStartIndex "debug" = some 1 ∧
    argsStartIndex "warn" = some 1 ∧ argsStartIndex "error" = some 1 ∧
    argsStartIndex "trace" = some 1 ∧ argsStartIndex "print" = some 1 ∧
    argsStartIndex "println" = some 1 ∧ argsStartIndex "eprint" = some 1 ∧
    argsStartIndex "eprintln" = some 1 ∧
    argsStartIndex "write" = some 2 ∧ argsStartIndex "writeln" = some 2 ∧
    argsStartIndex "assert" = some 2 ∧
    argsStartIndex "assert_eq" = some 3 ∧ argsStartIndex "assert_ne" = some 3 := by
  refine ⟨?_, rfl, rfl, rfl, rfl, rfl, rfl, rfl, rfl, rfl, rfl, rfl, rfl, rfl,
    rfl, rfl, rfl, rfl, rfl, rfl, rfl⟩
  intro s hs
  simp only [knownMacroNames, List.mem_cons, List.not_mem_nil, or_false,
    not_or] at hs
  obtain ⟨h1, h2, h3, h4, h5, h6, h7, h8, h9, h10, h11, h12, h13, h14, h15,
    h16, h17, h18, h19, h20⟩ := hs
  simp [argsStartIndex, h1, h2, h3, h4, h5, h6, h7, h8, h9, h10, h11, h12,
    h13, h14, h15, h16, h17, h18, h19, h20]

/-- Witness for C3 at the unknown name vec. -/
theorem C3_signature_table_witness : argsStartIndex "vec" = none :=
  C3_signature_table.1 "vec" (by decide)

/-- Claim C4: counter addition is commutative and associative with the
all-zero counter as identity, so summing any list of counters is
invariant under concatenation splitting and under permutation. -/
theorem C4_counter_monoid :
    (∀ a b : ArgsCounter, a.add b = b.add a) ∧
    (∀ a b c : ArgsCounter, (a.add b).add c = a.add (b.add c)) ∧
    (∀ a : ArgsCounter, a.add ArgsCounter.default = a ∧
      ArgsCounter.default.add a = a) ∧
    (∀ l₁ l₂ : List ArgsCounter,
      sumCounters (l₁ ++ l₂) = (sumCounters l₁).add (sumCounters l₂)) ∧
    (∀ l₁ l₂ : List ArgsCounter, l₁.Perm l₂ → sumCounters l₁ = sumCounters l₂) :=
  ⟨counterAdd_comm, counterAdd_assoc, counterAdd_default,
    sumCounters_append, sumCounters_perm⟩

/-- Witness for C4 at a two-element swap. -/
theorem C4_counter_monoid_witness :
    sumCounters [ArgsCounter.mk 1 2 3 4 5, ArgsCounter.mk 5 4 3 2 1] =
      sumCounters [ArgsCounter.mk 5 4 3 2 1, ArgsCounter.mk 1 2 3 4 5] :=
  C4_counter_monoid.2.2.2.2 _ _ (List.Perm.swap _ _ _)

/-- Claim C5: a field projection whose immediate base is a bare
identifier is tallied as a direct (simple) field access, and one whose
immediate base is itself a field projection that strips down to a bare
identifier is tallied as a nested field access. -/
theorem C5_field_classification (base : Expr) (member : String) :
    (is_ident base = true →
      countArgs [Expr.field base member] = ⟨1, 0, 0, 0, 0⟩) ∧
    (∀ b₂ m₂, base = Expr.field b₂ m₂ →
      is_ident (strip_field_accesses base) = true →
      countArgs [Expr.field base member] = ⟨0, 1, 0, 0, 0⟩) := by
  constructor
  · intro h
    have hfe : is_ident (Expr.field base member) = false := rfl
    simp [countArgs, classifyStep, hfe, h, ArgsCounter.default]
  · rintro b₂ m₂ rfl h
    have hfe : is_ident (Expr.field (Expr.field b₂ m₂) member) = false := rfl
    have hfb : is_ident (Expr.field b₂ m₂) = false := rfl
    simp [countArgs, classifyStep, hfe, hfb, h, ArgsCounter.default]

/-- Witness for C5 at x.y and x.y.z. -/
theorem C5_field_classification_witness :
    countArgs [Expr.field (identExpr "x") "y"] = ⟨1, 0, 0, 0, 0⟩ ∧
    countArgs [Expr.field (Expr.field (identExpr "x") "y") "z"] = ⟨0, 1, 0, 0, 0⟩ :=
  ⟨(C5_field_classification (identExpr "x") "y").1 rfl,
   (C5_field_classification (Expr.field (identExpr "x") "y") "z").2
     (identExpr "x") "y" rfl rfl⟩

/-- Claim C6: a method-call expression is tallied as a method call
regardless of its argument count and of whether it carries explicit
generic (turbofish) arguments. -/
theorem C6_method_call_classification (receiver : Expr) (method : String)
    (turbofish : Bool) (args : List Expr) :
    countArgs [Expr.methodCall receiver method turbofish args] = ⟨0, 0, 0, 1, 0⟩ := by
  have hm : is_ident (Expr.methodCall receiver method turbofish args) = false := rfl
  simp [countArgs, classifyStep, hm, ArgsCounter.default]



/-- Claim C7, counterexample: the body (0,) parses successfully, but
appending one more trailing comma gives (0,,), which is a parse
failure, so a trailing comma cannot be appended to every successfully
parsed body. -/
theorem C7_counterexample :
    parseArgs [Tok.atom (Expr.lit 0), Tok.comma] = some [Expr.lit 0] ∧
    parseArgs ([Tok.atom (Expr.lit 0), Tok.comma] ++ [Tok.comma]) = none :=
  ⟨rfl, rfl⟩

/-- Witness for C7 (amended) at the body (0, x). -/
theorem parseArgs_trailing_comma_witness :
    parseArgs ([Tok.atom (Expr.lit 0), Tok.comma, Tok.identTok "x"] ++ [Tok.comma]) =
      some [Expr.lit 0, identExpr "x"] :=
  parseArgs_trailing_comma [Tok.atom (Expr.lit 0), Tok.comma, Tok.identTok "x"]
    [Expr.lit 0, identExpr "x"] rfl (by simp)

/-- Claim C8: in a non-leading position, a named form contributes only
its value expression at the position where it appeared; any other
non-leading argument, and the leading argument, contribute the parsed
expression itself. -/
theorem C8_named_argument (n : String) (ts r : List Tok) (v : Expr) (l : List Expr) :
    (parseExpr ts = some (v, r) → parseRest r = some l →
      parseRest (Tok.comma :: Tok.identTok n :: Tok.eq :: ts) = some (v :: l)) ∧
    ((∀ m ts', ts ≠ Tok.identTok m :: Tok.eq :: ts') →
      parseExpr ts = some (v, r) → parseRest r = some l →
      parseRest (Tok.comma :: ts) = some (v :: l)) ∧
    (parseExpr ts = some (v, r) → parseRest r = some l →
      parseArgs ts = some (v :: l)) := by
  refine ⟨?_, ?_, ?_⟩
  · intro he hl
    rw [parseRest_comma_named n ts v r he, hl]
    rfl
  · intro hshape he hl
    rw [parseRest_comma_positional ts v r hshape he, hl]
    rfl
  · intro he hl
    unfold parseArgs
    rw [he]
    show (match parseRest r with
        | none => none
        | some l₂ => some (v :: l₂)) = some (v :: l)
    rw [hl]

/-- Witness for C8 at the named argument y = x. -/
theorem C8_named_argument_witness :
    parseRest [Tok.comma, Tok.identTok "y", Tok.eq, Tok.identTok "x"] =
      some [identExpr "x"] :=
  (C8_named_argument "y" [Tok.identTok "x"] [] (identExpr "x") []).1 rfl rfl

/-- Claim C9: for every record list, the strict inlineable count is at
most the relaxed inlineable count, which is at most the number of
records. -/
theorem C9_inlineable_counts (calls : List MacroCall) :
    can_be_inlined_now calls ≤ can_be_inlined_after calls ∧
    can_be_inlined_after calls ≤ calls.length := by
  constructor
  · apply length_filter_mono
    intro c hc
    simp only [Bool.and_eq_true] at hc ⊢
    exact ⟨hc.1.1.1, hc.1.1.2⟩
  · exact List.length_filter_le _ _

/-- Claim C10: a macro invocation whose path is not a bare
single-segment identifier produces no record. -/
theorem C10_qualified_path (node : MacNode) (h : node.path.get_ident = none) :
    visitExprMac node = none := by
  unfold visitExprMac
  rw [h]

/-- Witness for C10 at log::info with a well-formed, sufficiently long
body whose final segment name is in the table. -/
theorem C10_qualified_path_witness : visitExprMac qualNode = none :=
  C10_qualified_path qualNode rfl

end FormatArgs
